import Mathlib

/-!
Verification of the DFA engine of this repository (src/src/classes/DFA.ts,
first revision, together with the form-layer validator in
src/unnamed/part_000 and, further below, the suffix-buffer revision of
DFA.ts).

Modelling conventions:
* TS strings over the alphabet are `List Char`; one-character TS symbols are
  `Char`.
* The TS `stateToKey` encoding `q_${progress}_${count}` is a bijection
  between states and their string keys, so string-keyed sets/dictionaries
  are modelled as association lists keyed by the state itself.
* JS `Map`/object dictionaries are association lists; `new Set(array)`
  keeps the first occurrence of each element in insertion order
  (`setOfList` below).
* `throw` is modelled with `Except`; a lookup of a missing dictionary key
  followed by use of the result (a TypeError crash in JS) is modelled by
  the distinguished error `DFAError.lookupFailure`.
* The numeric field `requiredCount` is a `Nat`: the engine constructor
  itself performs no validation of it (see `mkDFA`), and the form-layer
  `Number.isInteger` check is outside a typed model.
-/

set_option linter.unusedVariables false

namespace Tyap

/-- The `DFAState` interface of src/src/types/dfa.ts: a pair of
suffix-matching progress and occurrence count. -/
structure DFAState where
  progress : Nat
  count : Nat
deriving DecidableEq, Repr

/-- The `DFAConfig` interface of src/src/types/dfa.ts. -/
structure DFAConfig where
  alphabet : List Char
  targetString : List Char
  targetChar : Char
  requiredCount : Nat
deriving DecidableEq, Repr

/-- Errors the engine can raise: the two constructor `throw`s of DFA.ts
(lines 29-42), the `InvalidSymbolError` of src/src/types/dfa.ts, and the
model of a crash on a missing transition-table entry. -/
inductive DFAError where
  | targetCharNotInAlphabet (c : Char)
  | targetStringCharNotInAlphabet (c : Char)
  | invalidSymbol (c : Char)
  | lookupFailure
deriving DecidableEq, Repr

/-- `new Set(array)` in iteration order: first occurrence of each element. -/
def setOfList (l : List Char) : List Char :=
  l.foldl (fun acc c => if acc.contains c then acc else acc ++ [c]) []

/-- The fallback search loop of `DFA.calculateNextState` (DFA.ts lines
144-160): it tries candidate lengths `len = fuel, fuel-1, ..., 1` (the
source starts the loop at `len = currentState.progress`) and returns the
first `len` whose prefix/suffix slices match and whose next target
character equals `symbol`; `0` if no length matches.  The `Nat` argument
of the recursion is the current loop variable `len`. -/
def fallbackLoop (target : List Char) (progress : Nat) (symbol : Char) : Nat → Nat
  | 0 => 0
  | len + 1 =>
    let pre := target.take len
    let suf := (target.take progress).drop (progress - (len + 1) + 1)
    if pre == suf && target[len]? == some symbol then len + 1
    else fallbackLoop target progress symbol len

/-- The progress-update part of `DFA.calculateNextState` (DFA.ts lines
130-166): direct extension when the symbol continues the match, otherwise
the fallback loop, otherwise the first-character special case. -/
def nextProgress (target : List Char) (progress : Nat) (symbol : Char) : Nat :=
  if progress < target.length && target[progress]? == some symbol then
    progress + 1
  else
    let p := fallbackLoop target progress symbol progress
    if p == 0 && target[0]? == some symbol then 1 else p

/-- The count-update part of `DFA.calculateNextState` (DFA.ts lines
118-125): increment on the target character, saturating at
`requiredCount + 1`. -/
def nextCount (targetChar : Char) (requiredCount : Nat) (count : Nat) (symbol : Char) : Nat :=
  if symbol == targetChar then
    (if count ≤ requiredCount then count + 1 else count)
  else count

/-- `DFA.calculateNextState` (DFA.ts lines 115-175). -/
def calculateNextState (target : List Char) (targetChar : Char) (requiredCount : Nat)
    (st : DFAState) (symbol : Char) : DFAState :=
  { progress := nextProgress target st.progress symbol
    count := nextCount targetChar requiredCount st.count symbol }

/-- `DFA.buildStates` (DFA.ts lines 66-75): every pair with
`progress ≤ target.length` and `count ≤ requiredCount + 1`, in
nested-loop order (outer `progress`, inner `count`). -/
def buildStates (m requiredCount : Nat) : List DFAState :=
  (List.range (m + 1)).flatMap
    (fun p => (List.range (requiredCount + 2)).map (fun c => ⟨p, c⟩))

/-- `DFA.buildAcceptingStates` (DFA.ts lines 80-92): the keys of the
declared states with full suffix progress and exact count. -/
def buildAcceptingStates (states : List DFAState) (m requiredCount : Nat) : List DFAState :=
  states.filter (fun st => st.progress == m && st.count == requiredCount)

/-- One row of the transition table: the inner loop of
`DFA.buildTransitions` (DFA.ts lines 103-106). -/
def buildTransitionRow (alphabet target : List Char) (targetChar : Char) (requiredCount : Nat)
    (st : DFAState) : List (Char × DFAState) :=
  alphabet.map (fun a => (a, calculateNextState target targetChar requiredCount st a))

/-- `DFA.buildTransitions` (DFA.ts lines 98-108). -/
def buildTransitions (alphabet target : List Char) (targetChar : Char) (requiredCount : Nat)
    (states : List DFAState) : List (DFAState × List (Char × DFAState)) :=
  states.map (fun st => (st, buildTransitionRow alphabet target targetChar requiredCount st))

/-- The engine's fields, as assembled by the constructor. -/
structure DFA where
  alphabet : List Char
  targetString : List Char
  targetChar : Char
  requiredCount : Nat
  states : List DFAState
  startState : DFAState
  acceptingStateKeys : List DFAState
  transitions : List (DFAState × List (Char × DFAState))
deriving Repr

/-- The `DFA` constructor (DFA.ts lines 22-56): stores the config, checks
that `targetChar` is in the alphabet and that every character of
`targetString` is in the alphabet (throwing on the first offender), then
builds states, transitions and accepting keys.  It performs no check on
`requiredCount` and no emptiness check on the alphabet. -/
def mkDFA (config : DFAConfig) : Except DFAError DFA :=
  if !(setOfList config.alphabet).contains config.targetChar then
    .error (.targetCharNotInAlphabet config.targetChar)
  else
    match config.targetString.find? (fun ch => !(setOfList config.alphabet).contains ch) with
    | some ch => .error (.targetStringCharNotInAlphabet ch)
    | none =>
      .ok { alphabet := setOfList config.alphabet
            targetString := config.targetString
            targetChar := config.targetChar
            requiredCount := config.requiredCount
            states := buildStates config.targetString.length config.requiredCount
            startState := ⟨0, 0⟩
            acceptingStateKeys :=
              buildAcceptingStates (buildStates config.targetString.length config.requiredCount)
                config.targetString.length config.requiredCount
            transitions :=
              buildTransitions (setOfList config.alphabet) config.targetString config.targetChar
                config.requiredCount
                (buildStates config.targetString.length config.requiredCount) }

/-- Dictionary lookup `this.transitions[stateKey][symbol]`, inner level. -/
def lookupRow (row : List (Char × DFAState)) (a : Char) : Option DFAState :=
  (row.find? (fun p => p.1 == a)).map (fun p => p.2)

/-- Dictionary lookup `this.transitions[stateKey][symbol]`, both levels. -/
def lookupTransitions (t : List (DFAState × List (Char × DFAState)))
    (st : DFAState) (a : Char) : Option DFAState :=
  match t.find? (fun p => p.1 == st) with
  | some p => lookupRow p.2 a
  | none => none

/-- The walk loop of `DFA.accepts` (DFA.ts lines 192-208), parametrised by
the current state. -/
def acceptsFrom (d : DFA) : DFAState → List Char → Except DFAError Bool
  | st, [] => .ok (d.acceptingStateKeys.contains st)
  | st, a :: rest =>
    if !d.alphabet.contains a then .error (.invalidSymbol a)
    else
      match lookupTransitions d.transitions st a with
      | some st' => acceptsFrom d st' rest
      | none => .error .lookupFailure

/-- `DFA.accepts` (DFA.ts lines 192-208). -/
def DFA.accepts (d : DFA) (input : List Char) : Except DFAError Bool :=
  acceptsFrom d d.startState input

/-- The walk loop of `DFA.trace` (DFA.ts lines 226-239): an invalid symbol
breaks out of the loop instead of raising. Entries are
(symbol taken, state reached); the initial entry has no symbol. -/
def traceFrom (d : DFA) : DFAState → List Char → Except DFAError (List (Option Char × DFAState))
  | _, [] => .ok []
  | st, a :: rest =>
    if !d.alphabet.contains a then .ok []
    else
      match lookupTransitions d.transitions st a with
      | some st' =>
        match traceFrom d st' rest with
        | .ok tail => .ok ((some a, st') :: tail)
        | .error e => .error e
      | none => .error .lookupFailure

/-- `DFA.trace` (DFA.ts lines 214-242): the start-state entry followed by
the steps actually taken. -/
def DFA.trace (d : DFA) (input : List Char) :
    Except DFAError (List (Option Char × DFAState)) :=
  match traceFrom d d.startState input with
  | .ok tail => .ok ((none, d.startState) :: tail)
  | .error e => .error e

/-- `DFA.isAcceptingState` (DFA.ts lines 247-250). -/
def DFA.isAcceptingState (d : DFA) (st : DFAState) : Bool :=
  d.acceptingStateKeys.contains st

/-- Pure reference walk over the transition table by repeated lookup;
`none` models the crash on a missing entry. -/
def tableWalk (d : DFA) : DFAState → List Char → Option DFAState
  | st, [] => some st
  | st, a :: rest =>
    match lookupTransitions d.transitions st a with
    | some st' => tableWalk d st' rest
    | none => none

/-- The list of edges a walk takes from `st` along `input`, computed with
the transition function itself. -/
def walkSteps (target : List Char) (targetChar : Char) (requiredCount : Nat) :
    DFAState → List Char → List (Option Char × DFAState)
  | _, [] => []
  | st, a :: rest =>
    let st' := calculateNextState target targetChar requiredCount st a
    (some a, st') :: walkSteps target targetChar requiredCount st' rest

/-- Greatest `len ≤ n` with `P len`; `0` if there is none. -/
def greatestLe (P : Nat → Bool) : Nat → Nat
  | 0 => 0
  | n + 1 => if P (n + 1) then n + 1 else greatestLe P n

/-- Length of the longest prefix of `target` that is a suffix of `s`: the
KMP matched-prefix value that the spec's §3 describes for `progress`. -/
def maxBorder (target s : List Char) : Nat :=
  greatestLe (fun len => decide (target.take len <:+ s)) target.length

/-- Reference acceptance predicate, following the words of the spec (§8)
and of claim C1: `s` ends with `targetString` (or `targetString` is
empty) and the count of `targetChar` in `s` is exactly `requiredCount`. -/
def specAccepts (cfg : DFAConfig) (s : List Char) : Bool :=
  (decide (cfg.targetString <:+ s) || cfg.targetString.isEmpty)
    && (s.count cfg.targetChar == cfg.requiredCount)

/-- Errors of the form-layer validator in src/unnamed/part_000. -/
inductive ValidationError where
  | emptyAlphabet
  | symbolNotInAlphabet
  | invalidCount
deriving DecidableEq, Repr

/-- `validateLanguage` from src/unnamed/part_000: the form-layer
validation.  The `typeof targetString === "string"` and
`Number.isInteger` runtime-type checks have no content in a typed model;
the value check `requiredCount < 1` is kept. -/
def validateLanguage (cfg : DFAConfig) : Except ValidationError Unit :=
  if cfg.alphabet.isEmpty then .error .emptyAlphabet
  else if !cfg.alphabet.contains cfg.targetChar then .error .symbolNotInAlphabet
  else if cfg.requiredCount < 1 then .error .invalidCount
  else .ok ()

/-! ### The suffix-buffer revision of DFA.ts (second document in the file)

This earlier revision keeps a `suffixBuffer : Map<StateID, string>` on the
engine and its `accepts` contains a conditional `suffixBuffer.set` — the
only statement in either revision that could mutate engine-held state
after construction (`trace` of this revision performs no write).  The
buffer map is threaded explicitly. -/

/-- Config of the suffix-buffer revision (it reads `config.minCount`). -/
structure DFAConfig2 where
  alphabet : List Char
  targetString : List Char
  targetChar : Char
  minCount : Nat
deriving DecidableEq, Repr

/-- JS `s.slice(-n)` on a string: the last `n` characters — except that
for `n = 0`, `slice(-0)` is `slice(0)`, the whole string. -/
def sliceNeg (s : List Char) (n : Nat) : List Char :=
  if n = 0 then s else s.drop (s.length - n)

/-- `suffixBuffer.has(key)` on the association-list model of the map. -/
def bufHas (buf : List (DFAState × List Char)) (st : DFAState) : Bool :=
  buf.any (fun p => p.1 == st)

/-- `suffixBuffer.get(key) || ""`. -/
def bufGet (buf : List (DFAState × List Char)) (st : DFAState) : List Char :=
  match buf.find? (fun p => p.1 == st) with
  | some p => p.2
  | none => []

/-- `suffixBuffer.set(key, v)`: update in place, else append. -/
def bufSet (buf : List (DFAState × List Char)) (st : DFAState) (v : List Char) :
    List (DFAState × List Char) :=
  match buf with
  | [] => [(st, v)]
  | p :: rest => if p.1 == st then (st, v) :: rest else p :: bufSet rest st v

/-- The buffer-matching loop of the suffix-buffer revision's
`calculateNextState` (DFA.ts lines 463-476): longest `len` whose
buffer-suffix equals the target-prefix of that length. -/
def bufferMatchLoop (target newBuffer : List Char) : Nat → Nat
  | 0 => 0
  | len + 1 =>
    if sliceNeg newBuffer (len + 1) == target.take (len + 1) then len + 1
    else bufferMatchLoop target newBuffer len

/-- `calculateNextState` of the suffix-buffer revision (DFA.ts lines
439-490). -/
def calculateNextState2 (target : List Char) (tc : Char) (mc : Nat)
    (st : DFAState) (currentBuffer : List Char) (symbol : Char) : DFAState :=
  { progress :=
      if bufferMatchLoop target (sliceNeg (currentBuffer ++ [symbol]) target.length)
          (min (sliceNeg (currentBuffer ++ [symbol]) target.length).length target.length) == 0
          && target[0]? == some symbol then 1
      else bufferMatchLoop target (sliceNeg (currentBuffer ++ [symbol]) target.length)
        (min (sliceNeg (currentBuffer ++ [symbol]) target.length).length target.length)
    count := if symbol == tc then (if st.count ≤ mc then st.count + 1 else st.count)
      else st.count }

/-- The inner symbol loop of the suffix-buffer revision's
`buildTransitions` (DFA.ts lines 420-432): accumulates the row and
conditionally inserts the successor's buffer into the shared map. -/
def buildRow2 (target : List Char) (tc : Char) (mc : Nat) (st : DFAState) (curBuf : List Char) :
    List Char → List (Char × DFAState) → List (DFAState × List Char) →
      List (Char × DFAState) × List (DFAState × List Char)
  | [], row, buf => (row, buf)
  | a :: rest, row, buf =>
    buildRow2 target tc mc st curBuf rest
      (row ++ [(a, calculateNextState2 target tc mc st curBuf a)])
      (if bufHas buf (calculateNextState2 target tc mc st curBuf a) then buf
       else bufSet buf (calculateNextState2 target tc mc st curBuf a)
         (sliceNeg (curBuf ++ [a]) target.length))

/-- The outer state loop of the suffix-buffer revision's
`buildTransitions` (DFA.ts lines 412-434). -/
def buildTransitions2 (target : List Char) (tc : Char) (mc : Nat) :
    List DFAState → List (DFAState × List (Char × DFAState)) →
      List (DFAState × List Char) → List Char →
      List (DFAState × List (Char × DFAState)) × List (DFAState × List Char)
  | [], table, buf, _ => (table, buf)
  | st :: rest, table, buf, alphabet =>
    buildTransitions2 target tc mc rest
      (table ++ [(st, (buildRow2 target tc mc st (bufGet buf st) alphabet [] buf).1)])
      (buildRow2 target tc mc st (bufGet buf st) alphabet [] buf).2 alphabet

/-- The engine fields of the suffix-buffer revision, including the
mutable `suffixBuffer` cache. -/
structure DFA2 where
  alphabet : List Char
  targetString : List Char
  targetChar : Char
  minCount : Nat
  states : List DFAState
  startState : DFAState
  acceptingStateKeys : List DFAState
  transitions : List (DFAState × List (Char × DFAState))
  suffixBuffer : List (DFAState × List Char)
deriving Repr

/-- Constructor of the suffix-buffer revision (DFA.ts lines 341-375): the
same alphabet checks, then states, then transitions (threading the buffer
map from empty), then the start state's buffer entry, then accepting
keys. -/
def mkDFA2 (config : DFAConfig2) : Except DFAError DFA2 :=
  if !(setOfList config.alphabet).contains config.targetChar then
    .error (.targetCharNotInAlphabet config.targetChar)
  else
    match config.targetString.find? (fun ch => !(setOfList config.alphabet).contains ch) with
    | some ch => .error (.targetStringCharNotInAlphabet ch)
    | none =>
      .ok { alphabet := setOfList config.alphabet
            targetString := config.targetString
            targetChar := config.targetChar
            minCount := config.minCount
            states := buildStates config.targetString.length config.minCount
            startState := ⟨0, 0⟩
            acceptingStateKeys :=
              buildAcceptingStates (buildStates config.targetString.length config.minCount)
                config.targetString.length config.minCount
            transitions :=
              (buildTransitions2 config.targetString config.targetChar config.minCount
                (buildStates config.targetString.length config.minCount) [] []
                (setOfList config.alphabet)).1
            suffixBuffer :=
              bufSet
                (buildTransitions2 config.targetString config.targetChar config.minCount
                  (buildStates config.targetString.length config.minCount) [] []
                  (setOfList config.alphabet)).2
                ⟨0, 0⟩ [] }

/-- The walk loop of `accepts` in the suffix-buffer revision (DFA.ts
lines 506-533): threads the walk-local buffer string and the engine's
shared `suffixBuffer` map, which the loop conditionally writes.  Returns
the result together with the final value of the `suffixBuffer` field. -/
def accepts2From (d : DFA2) :
    DFAState → List Char → List Char → List (DFAState × List Char) →
      Except DFAError Bool × List (DFAState × List Char)
  | st, _, [], buf => (.ok (d.acceptingStateKeys.contains st), buf)
  | st, curBuf, a :: rest, buf =>
    if !d.alphabet.contains a then (.error (.invalidSymbol a), buf)
    else
      match lookupTransitions d.transitions st a with
      | some st' =>
        accepts2From d st' (sliceNeg (curBuf ++ [a]) d.targetString.length) rest
          (if bufHas buf st' then buf
           else bufSet buf st' (sliceNeg (curBuf ++ [a]) d.targetString.length))
      | none => (.error .lookupFailure, buf)

/-- `accepts` of the suffix-buffer revision: the walk starts from the
start state with an empty local buffer and the engine's current
`suffixBuffer`. -/
def DFA2.accepts (d : DFA2) (input : List Char) :
    Except DFAError Bool × List (DFAState × List Char) :=
  accepts2From d d.startState [] input d.suffixBuffer

/-- A degenerate engine value, used only to state concrete instances. -/
def fallbackDFA : DFA := ⟨[], [], 'a', 0, [], ⟨0, 0⟩, [], []⟩

/-- Extracts the engine from a successful construction. -/
def okDFA (e : Except DFAError DFA) : DFA :=
  match e with
  | .ok d => d
  | .error _ => fallbackDFA

/-- A degenerate suffix-buffer engine value. -/
def fallbackDFA2 : DFA2 := ⟨[], [], 'a', 0, [], ⟨0, 0⟩, [], [], []⟩

/-- Extracts the suffix-buffer engine from a successful construction. -/
def okDFA2 (e : Except DFAError DFA2) : DFA2 :=
  match e with
  | .ok d => d
  | .error _ => fallbackDFA2

/-! ### Generic lemmas about `greatestLe` -/

theorem greatestLe_le (P : Nat → Bool) : ∀ n, greatestLe P n ≤ n
  | 0 => Nat.le_refl 0
  | n + 1 => by
    unfold greatestLe
    split
    · exact Nat.le_refl _
    · exact Nat.le_trans (greatestLe_le P n) (Nat.le_succ n)

theorem greatestLe_pos_spec (P : Nat → Bool) :
    ∀ n, 0 < greatestLe P n → P (greatestLe P n) = true
  | 0 => by intro h; simp [greatestLe] at h
  | n + 1 => by
    unfold greatestLe
    split
    · intro _; assumption
    · exact greatestLe_pos_spec P n

theorem le_greatestLe (P : Nat → Bool) {k : Nat} :
    ∀ n, k ≤ n → P k = true → k ≤ greatestLe P n
  | 0, hk, _ => by omega
  | n + 1, hk, hP => by
    unfold greatestLe
    split
    · exact hk
    · rename_i hfalse
      have hkn : k ≤ n := by
        rcases Nat.lt_or_ge k (n + 1) with h | h
        · omega
        · exfalso
          have : k = n + 1 := by omega
          rw [this] at hP
          exact hfalse hP
      exact le_greatestLe P n hkn hP

theorem greatestLe_congr {P Q : Nat → Bool} :
    ∀ n, (∀ k, 0 < k → k ≤ n → P k = Q k) → greatestLe P n = greatestLe Q n
  | 0, _ => rfl
  | n + 1, h => by
    unfold greatestLe
    rw [h (n + 1) (Nat.succ_pos n) (Nat.le_refl _),
      greatestLe_congr n (fun k hk hkn => h k hk (Nat.le_trans hkn (Nat.le_succ n)))]

theorem greatestLe_shrink (P : Nat → Bool) {b : Nat} :
    ∀ n, b ≤ n → (∀ k, b < k → k ≤ n → P k = false) → greatestLe P n = greatestLe P b
  | 0, hb, _ => by
    have : b = 0 := by omega
    rw [this]
  | n + 1, hb, h => by
    rcases Nat.lt_or_ge b (n + 1) with hlt | hge
    · have step : greatestLe P (n + 1) = if P (n + 1) = true then n + 1 else greatestLe P n := rfl
      rw [step, h (n + 1) hlt (Nat.le_refl _), if_neg Bool.false_ne_true]
      exact greatestLe_shrink P n (Nat.lt_succ_iff.mp hlt)
        (fun k hk hkn => h k hk (Nat.le_trans hkn (Nat.le_succ n)))
    · have : b = n + 1 := by omega
      rw [this]

/-! ### Suffix helper lemmas -/

theorem suffix_append_single {u v : List Char} {x y : Char} :
    u ++ [x] <:+ v ++ [y] ↔ u <:+ v ∧ x = y := by
  rw [← List.reverse_prefix]
  simp only [List.reverse_append, List.reverse_singleton, List.singleton_append]
  rw [List.cons_prefix_cons, List.reverse_prefix]
  tauto

theorem suffix_of_suffix_length_le {l₁ l₂ s : List Char}
    (h₁ : l₁ <:+ s) (h₂ : l₂ <:+ s) (hlen : l₁.length ≤ l₂.length) : l₁ <:+ l₂ := by
  obtain ⟨t₁, rfl⟩ := h₁
  obtain ⟨t₂, ht₂⟩ := h₂
  have hd₂ : (t₂ ++ l₂).drop t₂.length = l₂ := by simp
  have hlen2 : t₂.length ≤ t₁.length := by
    have := congrArg List.length ht₂
    simp at this
    omega
  have hd₁ : (t₁ ++ l₁).drop t₁.length = l₁ := by simp
  have : l₁ = l₂.drop (t₁.length - t₂.length) := by
    rw [← hd₁, ← hd₂, ht₂, List.drop_drop]
    congr 1
    omega
  rw [this]
  exact List.drop_suffix _ _

theorem suffix_append_right {u v : List Char} (w : List Char) (h : u <:+ v) :
    u ++ w <:+ v ++ w := by
  obtain ⟨t, rfl⟩ := h
  exact ⟨t, by simp⟩

theorem take_succ_of_getElem {target : List Char} {n : Nat} {c : Char}
    (h : target[n]? = some c) : target.take (n + 1) = target.take n ++ [c] := by
  rw [List.take_succ, h]
  rfl

theorem getElem_eq_of_lt {target : List Char} {n : Nat} (h : n < target.length) :
    ∃ c, target[n]? = some c := ⟨target[n], by simp [List.getElem?_eq_getElem h]⟩

/-! ### `setOfList` and `buildStates` lemmas -/

theorem mem_setOfList_aux {x : Char} :
    ∀ (l acc : List Char),
      x ∈ l.foldl (fun acc c => if acc.contains c then acc else acc ++ [c]) acc ↔
        x ∈ acc ∨ x ∈ l
  | [], acc => by simp
  | c :: rest, acc => by
    simp only [List.foldl_cons]
    rw [mem_setOfList_aux rest]
    by_cases h : acc.contains c = true
    · rw [if_pos h]
      have hc : c ∈ acc := by simpa using h
      simp only [List.mem_cons]
      constructor
      · rintro (h' | h')
        · exact Or.inl h'
        · exact Or.inr (Or.inr h')
      · rintro (h' | rfl | h')
        · exact Or.inl h'
        · exact Or.inl hc
        · exact Or.inr h'
    · rw [if_neg h]
      simp only [List.mem_append, List.mem_singleton, List.mem_cons]
      tauto

theorem mem_setOfList {x : Char} {l : List Char} : x ∈ setOfList l ↔ x ∈ l := by
  rw [setOfList, mem_setOfList_aux]
  simp

theorem nodup_setOfList_aux :
    ∀ (l acc : List Char), acc.Nodup →
      (l.foldl (fun acc c => if acc.contains c then acc else acc ++ [c]) acc).Nodup
  | [], _, h => h
  | c :: rest, acc, h => by
    simp only [List.foldl_cons]
    by_cases hc : acc.contains c = true
    · rw [if_pos hc]
      exact nodup_setOfList_aux rest acc h
    · rw [if_neg hc]
      refine nodup_setOfList_aux rest _ ?_
      have hcm : c ∉ acc := by simpa using hc
      simpa [List.nodup_append] using ⟨h, hcm⟩

theorem nodup_setOfList (l : List Char) : (setOfList l).Nodup :=
  nodup_setOfList_aux l [] List.nodup_nil

theorem mem_buildStates {m rc : Nat} {st : DFAState} :
    st ∈ buildStates m rc ↔ st.progress ≤ m ∧ st.count ≤ rc + 1 := by
  cases st with
  | mk p c =>
    simp only [buildStates, List.mem_flatMap, List.mem_map, List.mem_range]
    constructor
    · rintro ⟨p', hp', c', hc', h⟩
      cases h
      exact ⟨by omega, by omega⟩
    · rintro ⟨hp, hc⟩
      exact ⟨p, by omega, c, by omega, rfl⟩

theorem suffix_iff_drop_eq {l₁ l₂ : List Char} (h : l₁.length ≤ l₂.length) :
    l₁ <:+ l₂ ↔ l₂.drop (l₂.length - l₁.length) = l₁ := by
  constructor
  · rintro ⟨t, rfl⟩
    simp
  · intro hd
    rw [← hd]
    exact List.drop_suffix _ _

theorem loopCond_iff {target : List Char} {q len : Nat} (symbol : Char)
    (hq : q ≤ target.length) (hlen : len + 1 ≤ q) :
    ((target.take len == (target.take q).drop (q - (len + 1) + 1)) &&
      (target[len]? == some symbol)) = true ↔
      target.take (len + 1) <:+ (target.take q ++ [symbol]) := by
  have hlenm : len < target.length := by omega
  have hgl : target[len]? = some target[len] := List.getElem?_eq_getElem hlenm
  have harith : q - (len + 1) + 1 = q - len := by omega
  have hlq : (target.take q).length = q := by
    simp [List.length_take, Nat.min_eq_left hq]
  have hll : (target.take len).length = len := by
    simp [List.length_take, Nat.min_eq_left (Nat.le_of_lt hlenm)]
  have hsufflen : (target.take len).length ≤ (target.take q).length := by omega
  rw [Bool.and_eq_true, beq_iff_eq, beq_iff_eq, harith]
  rw [take_succ_of_getElem hgl, suffix_append_single]
  have hdrop : target.take len <:+ target.take q ↔
      (target.take q).drop (q - len) = target.take len := by
    have := suffix_iff_drop_eq hsufflen
    rw [hlq, hll] at this
    exact this
  rw [hdrop]
  constructor
  · rintro ⟨h1, h2⟩
    refine ⟨h1.symm, ?_⟩
    rw [hgl] at h2
    exact Option.some_inj.mp h2
  · rintro ⟨h1, h2⟩
    exact ⟨h1.symm, by rw [hgl, h2]⟩

theorem fallbackLoop_eq_greatestLe {target : List Char} {q : Nat} {symbol : Char}
    (hq : q ≤ target.length) :
    ∀ fuel, fuel ≤ q →
      fallbackLoop target q symbol fuel =
        greatestLe (fun len => decide (target.take len <:+ (target.take q ++ [symbol]))) fuel
  | 0, _ => rfl
  | len + 1, hfuel => by
    have hcond := loopCond_iff symbol hq hfuel
    have step : greatestLe (fun len => decide (target.take len <:+ (target.take q ++ [symbol])))
        (len + 1) =
        if decide (target.take (len + 1) <:+ (target.take q ++ [symbol])) = true then len + 1
        else greatestLe (fun len => decide (target.take len <:+ (target.take q ++ [symbol]))) len :=
      rfl
    rw [step]
    simp only [fallbackLoop]
    by_cases hsfx : target.take (len + 1) <:+ (target.take q ++ [symbol])
    · rw [if_pos (hcond.mpr hsfx), if_pos (by simpa using hsfx)]
    · rw [if_neg (fun hh => hsfx (hcond.mp hh)), if_neg (by simpa using hsfx)]
      exact fallbackLoop_eq_greatestLe hq len (by omega)

theorem greatestLe_one_le {target : List Char} {q : Nat} {c : Char}
    (hq1 : 1 ≤ q) (htc : target[0]? = some c) :
    1 ≤ greatestLe (fun len => decide (target.take len <:+ (target.take q ++ [c]))) q := by
  apply le_greatestLe _ q hq1
  have h1 : target.take 1 = [c] := by
    have := take_succ_of_getElem htc
    simpa using this
  rw [decide_eq_true_eq, h1]
  exact (suffix_append_single).mpr ⟨List.nil_suffix, rfl⟩

/-- In the else-branch of the progress update (full match or mismatching
symbol), `nextProgress` computes the greatest matching length up to `q`. -/
theorem nextProgress_else {target : List Char} {q : Nat} {c : Char}
    (hq : q ≤ target.length) (hbr : ¬(q < target.length ∧ target[q]? = some c)) :
    nextProgress target q c =
      greatestLe (fun len => decide (target.take len <:+ (target.take q ++ [c]))) q := by
  have hbool : (decide (q < target.length) && (target[q]? == some c)) = false := by
    rcases Nat.lt_or_ge q target.length with hlt | hge
    · have : target[q]? ≠ some c := fun hh => hbr ⟨hlt, hh⟩
      simp [this]
    · simp [Nat.not_lt.mpr hge]
  simp only [nextProgress, hbool, Bool.false_eq_true, if_false]
  rw [fallbackLoop_eq_greatestLe hq q (Nat.le_refl q)]
  set g := greatestLe (fun len => decide (target.take len <:+ (target.take q ++ [c]))) q with hg
  rcases Nat.eq_zero_or_pos q with rfl | hq1
  · -- q = 0: the loop does nothing; the first-symbol special case cannot fire
    have hg0 : g = 0 := rfl
    rcases Nat.eq_zero_or_pos target.length with hm0 | hm1
    · have : target = [] := List.length_eq_zero.mp hm0
      subst this
      simp [hg0]
    · have : target[0]? ≠ some c := fun hh => hbr ⟨hm1, hh⟩
      simp [hg0, this]
  · -- q ≥ 1: if the special case would fire, the loop already found length 1
    by_cases htc : target[0]? = some c
    · have h1 : 1 ≤ g := greatestLe_one_le hq1 htc
      have : (g == 0) = false := by
        cases hgv : g with
        | zero => omega
        | succ n => rfl
      simp [this]
    · simp [htc]

/-- `nextProgress` computes the greatest length `len ≤ min (q+1) |target|`
such that `target.take len` is a suffix of `target.take q ++ [c]`. -/
theorem nextProgress_eq_greatestLe {target : List Char} {q : Nat} {c : Char}
    (hq : q ≤ target.length) :
    nextProgress target q c =
      greatestLe (fun len => decide (target.take len <:+ (target.take q ++ [c])))
        (min (q + 1) target.length) := by
  set P : Nat → Bool := fun len => decide (target.take len <:+ (target.take q ++ [c])) with hP
  by_cases hbr : q < target.length ∧ target[q]? = some c
  · obtain ⟨hqlt, hqc⟩ := hbr
    have hmin : min (q + 1) target.length = q + 1 := by omega
    have htake : target.take (q + 1) = target.take q ++ [c] := take_succ_of_getElem hqc
    have hPq1 : P (q + 1) = true := by
      simp only [hP, decide_eq_true_eq, htake]
      exact List.suffix_rfl
    have step : greatestLe P (q + 1) = if P (q + 1) = true then q + 1 else greatestLe P q := rfl
    rw [hmin, step, if_pos hPq1]
    simp [nextProgress, hqlt, hqc]
  · rw [nextProgress_else hq hbr]
    rcases Nat.lt_or_ge q target.length with hlt | hge
    · -- q < |target| and the symbol does not extend: P (q+1) is false
      have hqc : target[q]? ≠ some c := fun hh => hbr ⟨hlt, hh⟩
      have hmin : min (q + 1) target.length = q + 1 := by omega
      have hPq1 : P (q + 1) = false := by
        simp only [hP, decide_eq_false_iff_not]
        intro hsfx
        have hgl : target[q]? = some target[q] := List.getElem?_eq_getElem hlt
        have htake : target.take (q + 1) = target.take q ++ [target[q]] :=
          take_succ_of_getElem hgl
        have hlens : (target.take (q + 1)).length = (target.take q ++ [c]).length := by
          simp [List.length_take]
          omega
        have heq := hsfx.eq_of_length hlens
        rw [htake] at heq
        have : target[q] = c := by
          have := List.append_inj_right heq rfl
          simpa using this
        exact hqc (by rw [hgl, this])
      have step : greatestLe P (q + 1) = if P (q + 1) = true then q + 1 else greatestLe P q := rfl
      rw [hmin, step, hPq1, if_neg Bool.false_ne_true]
    · -- q = |target|
      have hqm : q = target.length := by omega
      have hmin : min (q + 1) target.length = q := by omega
      rw [hmin]

theorem fallbackLoop_le (target : List Char) (progress : Nat) (symbol : Char) :
    ∀ fuel, fallbackLoop target progress symbol fuel ≤ fuel
  | 0 => Nat.le_refl 0
  | len + 1 => by
    simp only [fallbackLoop]
    split
    · exact Nat.le_refl _
    · exact Nat.le_trans (fallbackLoop_le target progress symbol len) (Nat.le_succ len)

/-! ### `maxBorder` lemmas and the KMP step -/

theorem maxBorder_le (target s : List Char) : maxBorder target s ≤ target.length :=
  greatestLe_le _ _

theorem maxBorder_suffix (target s : List Char) :
    target.take (maxBorder target s) <:+ s := by
  rcases Nat.eq_zero_or_pos (maxBorder target s) with h | h
  · rw [h]
    simp only [List.take_zero]
    exact List.nil_suffix
  · have hspec := greatestLe_pos_spec (fun len => decide (target.take len <:+ s)) target.length h
    exact decide_eq_true_eq.mp hspec

theorem le_maxBorder {target s : List Char} {k : Nat} (hk : k ≤ target.length)
    (hsfx : target.take k <:+ s) : k ≤ maxBorder target s :=
  le_greatestLe _ target.length hk (decide_eq_true_eq.mpr hsfx)

theorem maxBorder_nil (target : List Char) : maxBorder target [] = 0 := by
  rw [maxBorder, greatestLe_shrink _ target.length (Nat.zero_le _) ?_]
  · rfl
  · intro k hk hkm
    rw [decide_eq_false_iff_not]
    intro hsfx
    have h0 : target.take k = [] := List.suffix_nil.mp hsfx
    have h1 : (target.take k).length = 0 := by rw [h0]; rfl
    rw [List.length_take] at h1
    omega

theorem maxBorder_eq_length_iff {target s : List Char} :
    maxBorder target s = target.length ↔ target <:+ s := by
  constructor
  · intro h
    have := maxBorder_suffix target s
    rw [h, List.take_length] at this
    exact this
  · intro h
    exact Nat.le_antisymm (maxBorder_le _ _)
      (le_maxBorder (Nat.le_refl _) (by rw [List.take_length]; exact h))

/-- The KMP step: the longest target-prefix suffix of `s ++ [c]` is what
the engine's progress update computes from the one of `s`. -/
theorem maxBorder_append (target s : List Char) (c : Char) :
    maxBorder target (s ++ [c]) = nextProgress target (maxBorder target s) c := by
  have hqm : maxBorder target s ≤ target.length := maxBorder_le _ _
  rw [nextProgress_eq_greatestLe hqm]
  set q := maxBorder target s with hq
  set P : Nat → Bool := fun len => decide (target.take len <:+ (s ++ [c])) with hP
  set P' : Nat → Bool := fun len => decide (target.take len <:+ (target.take q ++ [c])) with hP'
  have hr_le : maxBorder target (s ++ [c]) ≤ min (q + 1) target.length := by
    have h1 : maxBorder target (s ++ [c]) ≤ target.length := maxBorder_le _ _
    rcases Nat.eq_zero_or_pos (maxBorder target (s ++ [c])) with h0 | hpos
    · omega
    · have hsfx : target.take (maxBorder target (s ++ [c])) <:+ s ++ [c] := maxBorder_suffix _ _
      obtain ⟨r', hr'⟩ : ∃ r', maxBorder target (s ++ [c]) = r' + 1 :=
        ⟨maxBorder target (s ++ [c]) - 1, by omega⟩
      have hr'm : r' < target.length := by omega
      obtain ⟨c0, hc0⟩ := getElem_eq_of_lt hr'm
      rw [hr', take_succ_of_getElem hc0] at hsfx
      obtain ⟨h1', h2'⟩ := suffix_append_single.mp hsfx
      have : r' ≤ q := le_maxBorder (by omega) h1'
      omega
  have hcongr : ∀ k, 0 < k → k ≤ min (q + 1) target.length → P' k = P k := by
    intro k hk hkle
    have hqsfx : target.take q <:+ s := maxBorder_suffix _ _
    obtain ⟨k', rfl⟩ : ∃ k', k = k' + 1 := ⟨k - 1, by omega⟩
    have hk'm : k' < target.length := by omega
    obtain ⟨c0, hc0⟩ := getElem_eq_of_lt hk'm
    rw [hP, hP']
    apply decide_eq_decide.mpr
    rw [take_succ_of_getElem hc0, suffix_append_single, suffix_append_single]
    have hlen' : (target.take k').length ≤ (target.take q).length := by
      simp only [List.length_take]
      omega
    constructor
    · rintro ⟨h1, rfl⟩
      exact ⟨h1.trans hqsfx, rfl⟩
    · rintro ⟨h1, rfl⟩
      exact ⟨suffix_of_suffix_length_le h1 hqsfx hlen', rfl⟩
  have hshrink : greatestLe P target.length = greatestLe P (min (q + 1) target.length) := by
    apply greatestLe_shrink P target.length (by omega)
    intro k hk hkm
    by_contra hPk
    rw [Bool.not_eq_false] at hPk
    have : k ≤ maxBorder target (s ++ [c]) := le_greatestLe P target.length hkm hPk
    omega
  calc maxBorder target (s ++ [c])
      = greatestLe P target.length := rfl
    _ = greatestLe P (min (q + 1) target.length) := hshrink
    _ = greatestLe P' (min (q + 1) target.length) :=
        (greatestLe_congr _ (fun k hk hkle => hcongr k hk hkle)).symm

/-! ### Folding the transition function over an input -/

theorem foldl_calculateNextState (target : List Char) (tc : Char) (rc : Nat) :
    ∀ (s : List Char) (st : DFAState),
      List.foldl (calculateNextState target tc rc) st s =
        ⟨List.foldl (fun q c => nextProgress target q c) st.progress s,
         List.foldl (fun k c => nextCount tc rc k c) st.count s⟩
  | [], _ => rfl
  | a :: rest, st => by
    simp only [List.foldl_cons]
    rw [foldl_calculateNextState target tc rc rest]
    rfl

theorem foldl_nextProgress_eq_maxBorder (target : List Char) (s : List Char) :
    List.foldl (fun q c => nextProgress target q c) 0 s = maxBorder target s := by
  induction s using List.reverseRecOn with
  | nil => rw [maxBorder_nil]; rfl
  | append_singleton s c ih =>
    rw [List.foldl_append, ih]
    simp only [List.foldl_cons, List.foldl_nil]
    exact (maxBorder_append target s c).symm

theorem foldl_nextCount (tc : Char) (rc : Nat) :
    ∀ (s : List Char) (n : Nat),
      List.foldl (fun k c => nextCount tc rc k c) (min n (rc + 1)) s =
        min (n + s.count tc) (rc + 1)
  | [], n => by simp
  | a :: rest, n => by
    simp only [List.foldl_cons]
    have hstep : nextCount tc rc (min n (rc + 1)) a =
        min (n + if a == tc then 1 else 0) (rc + 1) := by
      by_cases ha : a == tc
      · simp only [nextCount, ha, if_true]
        split <;> omega
      · simp only [nextCount, ha, Bool.false_eq_true, if_false]
        omega
    rw [hstep, foldl_nextCount tc rc rest (n + if a == tc then 1 else 0)]
    congr 1
    rw [List.count_cons]
    by_cases ha : a == tc
    · simp [ha]
      omega
    · simp [ha]

/-! ### Closure of the declared state space -/

theorem nextProgress_le {target : List Char} {q : Nat} {c : Char} (hq : q ≤ target.length) :
    nextProgress target q c ≤ target.length := by
  rw [nextProgress_eq_greatestLe hq]
  exact Nat.le_trans (greatestLe_le _ _) (by omega)

theorem nextCount_le {tc : Char} {rc k : Nat} {c : Char} (hk : k ≤ rc + 1) :
    nextCount tc rc k c ≤ rc + 1 := by
  unfold nextCount
  split
  · split <;> omega
  · omega

theorem calculateNextState_mem {target : List Char} {tc : Char} {rc : Nat}
    {st : DFAState} (a : Char) (h : st ∈ buildStates target.length rc) :
    calculateNextState target tc rc st a ∈ buildStates target.length rc := by
  obtain ⟨h1, h2⟩ := mem_buildStates.mp h
  exact mem_buildStates.mpr ⟨nextProgress_le h1, nextCount_le h2⟩

/-! ### Transition-table lookup lemmas -/

theorem lookupRow_mem {target : List Char} {tc : Char} {rc : Nat} {st : DFAState} {a : Char} :
    ∀ {alphabet : List Char}, a ∈ alphabet →
      lookupRow (buildTransitionRow alphabet target tc rc st) a =
        some (calculateNextState target tc rc st a)
  | [], ha => absurd ha (List.not_mem_nil a)
  | b :: rest, ha => by
    simp only [buildTransitionRow, List.map_cons, lookupRow]
    by_cases hb : b = a
    · subst hb
      rw [List.find?_cons_of_pos _ (by simp)]
      rfl
    · rw [List.find?_cons_of_neg _ (by simpa using hb)]
      have ha' : a ∈ rest := by
        rcases List.mem_cons.mp ha with rfl | h
        · exact absurd rfl hb
        · exact h
      exact lookupRow_mem ha'

theorem lookupRow_some {target : List Char} {tc : Char} {rc : Nat} {a : Char}
    {st st' : DFAState} :
    ∀ {alphabet : List Char},
      lookupRow (buildTransitionRow alphabet target tc rc st) a = some st' →
      a ∈ alphabet ∧ st' = calculateNextState target tc rc st a
  | [], h => Option.noConfusion h
  | b :: rest, h => by
    simp only [buildTransitionRow, List.map_cons, lookupRow] at h
    by_cases hb : b = a
    · subst hb
      rw [List.find?_cons_of_pos _ (by simp)] at h
      simp only [Option.map_some'] at h
      exact ⟨List.mem_cons_self b rest, (Option.some_inj.mp h).symm⟩
    · rw [List.find?_cons_of_neg _ (by simpa using hb)] at h
      have := lookupRow_some h
      exact ⟨List.mem_cons_of_mem _ this.1, this.2⟩

theorem lookupTransitions_mem {alphabet target : List Char} {tc : Char} {rc : Nat}
    {a : Char} {st : DFAState} :
    ∀ {states : List DFAState}, st ∈ states →
      lookupTransitions (buildTransitions alphabet target tc rc states) st a =
        lookupRow (buildTransitionRow alphabet target tc rc st) a
  | [], h => absurd h (List.not_mem_nil st)
  | st₀ :: rest, h => by
    simp only [buildTransitions, List.map_cons, lookupTransitions]
    by_cases h0 : st₀ = st
    · subst h0
      rw [List.find?_cons_of_pos _ (by simp)]
    · rw [List.find?_cons_of_neg _ (by simpa using h0)]
      have h' : st ∈ rest := by
        rcases List.mem_cons.mp h with rfl | hh
        · exact absurd rfl h0
        · exact hh
      exact lookupTransitions_mem h'

theorem lookupTransitions_some {alphabet target : List Char} {tc : Char} {rc : Nat}
    {a : Char} {st st' : DFAState} :
    ∀ {states : List DFAState},
      lookupTransitions (buildTransitions alphabet target tc rc states) st a = some st' →
      st ∈ states ∧ a ∈ alphabet ∧ st' = calculateNextState target tc rc st a
  | [], h => Option.noConfusion h
  | st₀ :: rest, h => by
    simp only [buildTransitions, List.map_cons, lookupTransitions] at h
    by_cases h0 : st₀ = st
    · subst h0
      rw [List.find?_cons_of_pos _ (by simp)] at h
      have := lookupRow_some h
      exact ⟨List.mem_cons_self st₀ rest, this.1, this.2⟩
    · rw [List.find?_cons_of_neg _ (by simpa using h0)] at h
      have := lookupTransitions_some h
      exact ⟨List.mem_cons_of_mem _ this.1, this.2.1, this.2.2⟩

/-! ### Unpacking a successful construction -/

theorem mkDFA_ok_elim {cfg : DFAConfig} {d : DFA} (h : mkDFA cfg = .ok d) :
    d = { alphabet := setOfList cfg.alphabet
          targetString := cfg.targetString
          targetChar := cfg.targetChar
          requiredCount := cfg.requiredCount
          states := buildStates cfg.targetString.length cfg.requiredCount
          startState := ⟨0, 0⟩
          acceptingStateKeys :=
            buildAcceptingStates (buildStates cfg.targetString.length cfg.requiredCount)
              cfg.targetString.length cfg.requiredCount
          transitions :=
            buildTransitions (setOfList cfg.alphabet) cfg.targetString cfg.targetChar
              cfg.requiredCount (buildStates cfg.targetString.length cfg.requiredCount) } := by
  unfold mkDFA at h
  split at h
  · exact Except.noConfusion h
  · split at h
    · exact Except.noConfusion h
    · injection h with h'
      exact h'.symm

theorem containsDFAState_iff {l : List DFAState} {x : DFAState} :
    l.contains x = true ↔ x ∈ l := by
  simp

theorem contains_buildAcceptingStates {m rc : Nat} {states : List DFAState} {st : DFAState}
    (hmem : st ∈ states) :
    (buildAcceptingStates states m rc).contains st = (st.progress == m && st.count == rc) := by
  by_cases hval : st.progress = m ∧ st.count = rc
  · obtain ⟨e1, e2⟩ := hval
    have hin : st ∈ buildAcceptingStates states m rc :=
      List.mem_filter.mpr ⟨hmem, by simp [e1, e2]⟩
    have h1 : (buildAcceptingStates states m rc).contains st = true :=
      containsDFAState_iff.mpr hin
    rw [h1]
    simp [e1, e2]
  · have hnot : st ∉ buildAcceptingStates states m rc := by
      intro hmem'
      refine hval ?_
      have := (List.mem_filter.mp hmem').2
      rw [Bool.and_eq_true, beq_iff_eq, beq_iff_eq] at this
      exact this
    have h1 : (buildAcceptingStates states m rc).contains st = false := by
      rw [← Bool.not_eq_true, containsDFAState_iff]
      exact hnot
    rw [h1]
    symm
    by_contra hc
    rw [Bool.not_eq_false, Bool.and_eq_true, beq_iff_eq, beq_iff_eq] at hc
    exact hval hc

/-! ### The evaluation walks, on a constructed engine -/

theorem acceptsFrom_valid {d : DFA}
    (hTrans : d.transitions =
      buildTransitions d.alphabet d.targetString d.targetChar d.requiredCount d.states)
    (hStates : d.states = buildStates d.targetString.length d.requiredCount) :
    ∀ (s : List Char) (st : DFAState), st ∈ d.states → (∀ c ∈ s, c ∈ d.alphabet) →
      acceptsFrom d st s =
        .ok (d.acceptingStateKeys.contains
          (List.foldl (calculateNextState d.targetString d.targetChar d.requiredCount) st s))
  | [], st, _, _ => rfl
  | a :: rest, st, hst, hs => by
    have ha : a ∈ d.alphabet := hs a (List.mem_cons_self a rest)
    have hac : d.alphabet.contains a = true := by simpa using ha
    simp only [acceptsFrom, hac, Bool.not_true, Bool.false_eq_true, if_false]
    rw [hTrans, lookupTransitions_mem (hStates ▸ hst), lookupRow_mem ha]
    show acceptsFrom d (calculateNextState d.targetString d.targetChar d.requiredCount st a)
      rest = _
    rw [acceptsFrom_valid hTrans hStates rest _
      (hStates ▸ calculateNextState_mem a (hStates ▸ hst))
      (fun c hc => hs c (List.mem_cons_of_mem _ hc))]
    simp [List.foldl_cons]

theorem traceFrom_takeWhile {d : DFA}
    (hTrans : d.transitions =
      buildTransitions d.alphabet d.targetString d.targetChar d.requiredCount d.states)
    (hStates : d.states = buildStates d.targetString.length d.requiredCount) :
    ∀ (s : List Char) (st : DFAState), st ∈ d.states →
      traceFrom d st s =
        .ok (walkSteps d.targetString d.targetChar d.requiredCount st
          (s.takeWhile (fun c => d.alphabet.contains c)))
  | [], st, _ => rfl
  | a :: rest, st, hst => by
    by_cases ha : d.alphabet.contains a = true
    · have ham : a ∈ d.alphabet := by simpa using ha
      simp only [traceFrom, ha, Bool.not_true, Bool.false_eq_true, if_false]
      rw [hTrans, lookupTransitions_mem (hStates ▸ hst), lookupRow_mem ham]
      show (match traceFrom d
              (calculateNextState d.targetString d.targetChar d.requiredCount st a) rest with
            | Except.ok tail =>
              Except.ok ((some a,
                calculateNextState d.targetString d.targetChar d.requiredCount st a) :: tail)
            | Except.error e => Except.error e) = _
      rw [traceFrom_takeWhile hTrans hStates rest _
        (hStates ▸ calculateNextState_mem a (hStates ▸ hst))]
      rw [List.takeWhile_cons, if_pos ha]
      rfl
    · have ha' : d.alphabet.contains a = false := by
        rw [← Bool.not_eq_true]
        exact ha
      simp only [traceFrom, ha', Bool.not_false, if_true]
      rw [List.takeWhile_cons, if_neg (by rw [ha']; exact Bool.false_ne_true)]
      rfl

theorem acceptsFrom_invalid {d : DFA}
    (hTrans : d.transitions =
      buildTransitions d.alphabet d.targetString d.targetChar d.requiredCount d.states)
    (hStates : d.states = buildStates d.targetString.length d.requiredCount)
    {bad : Char} (rest : List Char) (hbad : bad ∉ d.alphabet) :
    ∀ (pre : List Char) (st : DFAState), st ∈ d.states → (∀ c ∈ pre, c ∈ d.alphabet) →
      acceptsFrom d st (pre ++ bad :: rest) = .error (.invalidSymbol bad)
  | [], st, _, _ => by
    have hb : d.alphabet.contains bad = false := by
      rw [← Bool.not_eq_true]
      simpa using hbad
    simp only [List.nil_append, acceptsFrom, hb, Bool.not_false, if_true]
  | a :: pre', st, hst, hpre => by
    have ha : a ∈ d.alphabet := hpre a (List.mem_cons_self a pre')
    have hac : d.alphabet.contains a = true := by simpa using ha
    simp only [List.cons_append, acceptsFrom, hac, Bool.not_true, Bool.false_eq_true, if_false]
    rw [hTrans, lookupTransitions_mem (hStates ▸ hst), lookupRow_mem ha]
    show acceptsFrom d (calculateNextState d.targetString d.targetChar d.requiredCount st a)
      (pre' ++ bad :: rest) = _
    exact acceptsFrom_invalid hTrans hStates rest hbad pre' _
      (hStates ▸ calculateNextState_mem a (hStates ▸ hst))
      (fun c hc => hpre c (List.mem_cons_of_mem _ hc))

theorem walkSteps_length (target : List Char) (tc : Char) (rc : Nat) :
    ∀ (s : List Char) (st : DFAState),
      (walkSteps target tc rc st s).length = s.length
  | [], _ => rfl
  | a :: rest, st => by
    simp only [walkSteps, List.length_cons]
    rw [walkSteps_length target tc rc rest]

/-! ### Remaining shared helper lemmas -/

theorem bool_eq_of_iff {x y : Bool} (h : x = true ↔ y = true) : x = y := by
  cases x <;> cases y <;> simp_all

theorem nextCount_overflow (tc : Char) (rc : Nat) (c : Char) :
    nextCount tc rc (rc + 1) c = rc + 1 := by
  unfold nextCount
  split
  · rw [if_neg (by omega)]
  · rfl

theorem tableWalk_count_preserved {d : DFA}
    (hTrans : d.transitions =
      buildTransitions d.alphabet d.targetString d.targetChar d.requiredCount d.states) :
    ∀ (s : List Char) (st st' : DFAState), st.count = d.requiredCount + 1 →
      tableWalk d st s = some st' → st'.count = d.requiredCount + 1
  | [], st, st', hc, hw => by
    have h : st = st' := by simpa [tableWalk] using hw
    rw [← h]
    exact hc
  | a :: rest, st, st', hc, hw => by
    unfold tableWalk at hw
    cases hlk : lookupTransitions d.transitions st a with
    | none => rw [hlk] at hw; exact Option.noConfusion hw
    | some st1 =>
      rw [hlk] at hw
      rw [hTrans] at hlk
      obtain ⟨hmem, hal, hst1⟩ := lookupTransitions_some hlk
      refine tableWalk_count_preserved hTrans rest st1 st' ?_ hw
      rw [hst1]
      show nextCount d.targetChar d.requiredCount st.count a = d.requiredCount + 1
      rw [hc]
      exact nextCount_overflow _ _ _

theorem takeWhile_all {p : Char → Bool} :
    ∀ {l : List Char}, (∀ c ∈ l, p c = true) → l.takeWhile p = l
  | [], _ => rfl
  | a :: l, h => by
    rw [List.takeWhile_cons, if_pos (h a (List.mem_cons_self a l)),
      takeWhile_all (fun c hc => h c (List.mem_cons_of_mem _ hc))]

theorem takeWhile_append_stop {p : Char → Bool} {bad : Char} (rest : List Char)
    (hbad : p bad = false) :
    ∀ (pre : List Char), (∀ c ∈ pre, p c = true) →
      ((pre ++ bad :: rest).takeWhile p) = pre
  | [], _ => by
    rw [List.nil_append, List.takeWhile_cons, if_neg (by rw [hbad]; exact Bool.false_ne_true)]
  | a :: pre', h => by
    rw [List.cons_append, List.takeWhile_cons, if_pos (h a (List.mem_cons_self a pre')),
      takeWhile_append_stop rest hbad pre' (fun c hc => h c (List.mem_cons_of_mem _ hc))]

/-! ### The claims -/

/-- C9: the declared state space is closed under transitions: from any
state with `progress ≤ len(targetString)` and `count ≤ requiredCount+1`,
the computed successor satisfies the same bounds (and so stays in the
declared state list), with the only clamping being the saturating count
increment. -/
theorem state_space_closed (target : List Char) (tc : Char) (rc : Nat)
    (st : DFAState) (a : Char)
    (h1 : st.progress ≤ target.length) (h2 : st.count ≤ rc + 1) :
    calculateNextState target tc rc st a ∈ buildStates target.length rc ∧
    (calculateNextState target tc rc st a).progress ≤ target.length ∧
    (calculateNextState target tc rc st a).count ≤ rc + 1 :=
  ⟨mem_buildStates.mpr ⟨nextProgress_le h1, nextCount_le h2⟩,
    nextProgress_le h1, nextCount_le h2⟩

theorem state_space_closed_witness :
    (⟨2, 1⟩ : DFAState).progress ≤ (['a', 'b'] : List Char).length ∧
    (⟨2, 1⟩ : DFAState).count ≤ 1 + 1 ∧
    (calculateNextState ['a', 'b'] 'a' 1 ⟨2, 1⟩ 'a' ∈ buildStates 2 1 ∧
      (calculateNextState ['a', 'b'] 'a' 1 ⟨2, 1⟩ 'a').progress ≤ (['a', 'b'] : List Char).length ∧
      (calculateNextState ['a', 'b'] 'a' 1 ⟨2, 1⟩ 'a').count ≤ 1 + 1) :=
  ⟨by decide, by decide,
    state_space_closed ['a', 'b'] 'a' 1 ⟨2, 1⟩ 'a' (by decide) (by decide)⟩

/-- C10: on a constructed engine with `requiredCount ≥ 1`, the empty
input is rejected: the start state `(0, 0)` has `count 0 ≠ requiredCount`
and is never accepting. -/
theorem accepts_empty_is_false (cfg : DFAConfig) (d : DFA) (hmk : mkDFA cfg = .ok d)
    (hrc : 1 ≤ cfg.requiredCount) : d.accepts [] = .ok false := by
  have hd := mkDFA_ok_elim hmk
  subst hd
  have hmem : (⟨0, 0⟩ : DFAState) ∈ buildStates cfg.targetString.length cfg.requiredCount :=
    mem_buildStates.mpr ⟨Nat.zero_le _, Nat.zero_le _⟩
  show Except.ok
    ((buildAcceptingStates (buildStates cfg.targetString.length cfg.requiredCount)
      cfg.targetString.length cfg.requiredCount).contains ⟨0, 0⟩) = Except.ok false
  rw [contains_buildAcceptingStates hmem]
  have h0 : ((⟨0, 0⟩ : DFAState).count == cfg.requiredCount) = false := by
    simp only [beq_eq_false_iff_ne]
    show 0 ≠ cfg.requiredCount
    omega
  rw [h0, Bool.and_false]

theorem accepts_empty_is_false_witness :
    mkDFA ⟨['a', 'b'], ['a', 'b'], 'a', 2⟩ =
      .ok (okDFA (mkDFA ⟨['a', 'b'], ['a', 'b'], 'a', 2⟩)) ∧
    (okDFA (mkDFA ⟨['a', 'b'], ['a', 'b'], 'a', 2⟩)).accepts [] = .ok false :=
  ⟨rfl, accepts_empty_is_false ⟨['a', 'b'], ['a', 'b'], 'a', 2⟩ _ rfl (by decide)⟩

/-- C7: overflow is monotone: from any state whose count is the saturated
value `requiredCount + 1`, every state reached by walking the
precomputed transition table still has count `requiredCount + 1`. -/
theorem overflow_monotone (cfg : DFAConfig) (d : DFA) (hmk : mkDFA cfg = .ok d)
    (st : DFAState) (hcount : st.count = d.requiredCount + 1)
    (s : List Char) (st' : DFAState) (hwalk : tableWalk d st s = some st') :
    st'.count = d.requiredCount + 1 := by
  refine tableWalk_count_preserved ?_ s st st' hcount hwalk
  rw [mkDFA_ok_elim hmk]

theorem overflow_monotone_witness :
    mkDFA ⟨['a'], ['a'], 'a', 1⟩ = .ok (okDFA (mkDFA ⟨['a'], ['a'], 'a', 1⟩)) ∧
    (⟨0, 2⟩ : DFAState).count = (okDFA (mkDFA ⟨['a'], ['a'], 'a', 1⟩)).requiredCount + 1 ∧
    tableWalk (okDFA (mkDFA ⟨['a'], ['a'], 'a', 1⟩)) ⟨0, 2⟩ ['a', 'a'] = some ⟨1, 2⟩ ∧
    (⟨1, 2⟩ : DFAState).count = (okDFA (mkDFA ⟨['a'], ['a'], 'a', 1⟩)).requiredCount + 1 :=
  ⟨rfl, rfl, by decide,
    overflow_monotone ⟨['a'], ['a'], 'a', 1⟩ _ rfl ⟨0, 2⟩ rfl ['a', 'a'] ⟨1, 2⟩ (by decide)⟩

/-- C2, counterexample: the claimed restart rule (`progress' = 1` whenever
the symbol equals `targetString[0]` at a full-match state) fails on the
code for `targetString = "aa"`: at progress 2 the next `'a'` keeps
progress at 2, because the fallback loop finds the overlapping length-2
match before the first-character special case is consulted. -/
theorem fullMatch_restart_counterexample :
    (calculateNextState ['a', 'a'] 'a' 4 ⟨2, 2⟩ 'a').progress = 2 ∧
    (calculateNextState ['a', 'a'] 'a' 4 ⟨2, 2⟩ 'a').progress ≠ 1 := by
  constructor
  · decide
  · decide

/-- C2, amended: at a full-match state (`progress = len(targetString)`),
the state-space constructor applies the same KMP fallback as elsewhere:
the new progress is the length of the longest prefix of `targetString`
that is a suffix of `targetString ++ [symbol]` — `1`/`0` only when no
longer overlap exists.  In particular, for `targetString = "aa"` the next
`'a'` after a full match keeps progress at 2 (input `"aaaa"` still ends
with `"aa"`). -/
theorem fullMatch_progress_kmp_fallback (target : List Char) (tc : Char) (rc : Nat)
    (st : DFAState) (a : Char) (h : st.progress = target.length) :
    (calculateNextState target tc rc st a).progress =
      greatestLe (fun len => decide (target.take len <:+ (target ++ [a]))) target.length := by
  have e : (calculateNextState target tc rc st a).progress =
      nextProgress target st.progress a := rfl
  rw [e, h, nextProgress_eq_greatestLe (Nat.le_refl _),
    Nat.min_eq_right (Nat.le_succ _)]
  simp only [List.take_length]

theorem fullMatch_progress_kmp_fallback_witness :
    (⟨2, 0⟩ : DFAState).progress = (['a', 'a'] : List Char).length ∧
    (calculateNextState ['a', 'a'] 'a' 1 ⟨2, 0⟩ 'a').progress =
      greatestLe (fun len => decide ((['a', 'a'] : List Char).take len <:+
        (['a', 'a'] ++ ['a']))) (['a', 'a'] : List Char).length ∧
    greatestLe (fun len => decide ((['a', 'a'] : List Char).take len <:+
      (['a', 'a'] ++ ['a']))) (['a', 'a'] : List Char).length = 2 :=
  ⟨rfl, fullMatch_progress_kmp_fallback ['a', 'a'] 'a' 1 ⟨2, 0⟩ 'a' rfl, by decide⟩

/-- C3, counterexample: the engine constructor does not fail for
`requiredCount = 0`: construction succeeds and returns a complete
engine, so the engine does not re-validate the count itself. -/
theorem requiredCount_zero_constructs :
    (mkDFA ⟨['a'], [], 'a', 0⟩).isOk = true ∧
    validateLanguage ⟨['a'], [], 'a', 0⟩ = .error .invalidCount := by
  constructor
  · decide
  · rfl

/-- C3, amended: `requiredCount ≥ 1` is enforced only by the form-layer
`validateLanguage` (which rejects `requiredCount = 0` with the
invalid-count error once the alphabet checks pass); the engine
constructor performs no such check and returns a complete engine for
`requiredCount = 0` whenever its own alphabet checks pass. -/
theorem requiredCount_validated_by_form_layer (cfg : DFAConfig)
    (h1 : cfg.alphabet ≠ []) (h2 : cfg.targetChar ∈ cfg.alphabet)
    (h3 : ∀ c ∈ cfg.targetString, c ∈ cfg.alphabet) (h0 : cfg.requiredCount = 0) :
    validateLanguage cfg = .error .invalidCount ∧ ∃ d, mkDFA cfg = .ok d := by
  constructor
  · have e1 : cfg.alphabet.isEmpty = false := by
      cases halp : cfg.alphabet with
      | nil => exact absurd halp h1
      | cons a l => rfl
    have e2 : cfg.alphabet.contains cfg.targetChar = true := by simpa using h2
    unfold validateLanguage
    rw [e1, e2]
    simp [h0]
  · have hcont : (setOfList cfg.alphabet).contains cfg.targetChar = true := by
      simpa using mem_setOfList.mpr h2
    have hfind : cfg.targetString.find?
        (fun ch => !(setOfList cfg.alphabet).contains ch) = none := by
      rw [List.find?_eq_none]
      intro x hx
      simp [mem_setOfList.mpr (h3 x hx)]
    refine ⟨{ alphabet := setOfList cfg.alphabet
              targetString := cfg.targetString
              targetChar := cfg.targetChar
              requiredCount := cfg.requiredCount
              states := buildStates cfg.targetString.length cfg.requiredCount
              startState := ⟨0, 0⟩
              acceptingStateKeys :=
                buildAcceptingStates (buildStates cfg.targetString.length cfg.requiredCount)
                  cfg.targetString.length cfg.requiredCount
              transitions :=
                buildTransitions (setOfList cfg.alphabet) cfg.targetString cfg.targetChar
                  cfg.requiredCount
                  (buildStates cfg.targetString.length cfg.requiredCount) }, ?_⟩
    unfold mkDFA
    rw [hcont, hfind]
    rfl

theorem requiredCount_validated_by_form_layer_witness :
    validateLanguage ⟨['a', 'b'], ['b'], 'a', 0⟩ = .error .invalidCount ∧
    ∃ d, mkDFA ⟨['a', 'b'], ['b'], 'a', 0⟩ = .ok d :=
  requiredCount_validated_by_form_layer ⟨['a', 'b'], ['b'], 'a', 0⟩
    (by decide) (by decide) (by decide) rfl

/-- C1: for every validly constructed engine (non-empty alphabet,
`targetChar` and all of `targetString` in the alphabet,
`requiredCount ≥ 1`) and every input over the alphabet, `accepts` agrees
with the naive reference: true iff the input ends with `targetString`
(or `targetString` is empty) and contains `targetChar` exactly
`requiredCount` times. -/
theorem accepts_matches_naive_reference (cfg : DFAConfig) (d : DFA)
    (hA : cfg.alphabet ≠ [])
    (hc : cfg.targetChar ∈ cfg.alphabet)
    (hts : ∀ ch ∈ cfg.targetString, ch ∈ cfg.alphabet)
    (hrc : 1 ≤ cfg.requiredCount)
    (hmk : mkDFA cfg = .ok d)
    (s : List Char) (hs : ∀ c ∈ s, c ∈ cfg.alphabet) :
    d.accepts s = .ok (specAccepts cfg s) := by
  have hd := mkDFA_ok_elim hmk
  subst hd
  have hstart : (⟨0, 0⟩ : DFAState) ∈ buildStates cfg.targetString.length cfg.requiredCount :=
    mem_buildStates.mpr ⟨Nat.zero_le _, Nat.zero_le _⟩
  have hs' : ∀ c ∈ s, c ∈ setOfList cfg.alphabet := fun c hc' => mem_setOfList.mpr (hs c hc')
  have hacc : DFA.accepts
      { alphabet := setOfList cfg.alphabet
        targetString := cfg.targetString
        targetChar := cfg.targetChar
        requiredCount := cfg.requiredCount
        states := buildStates cfg.targetString.length cfg.requiredCount
        startState := ⟨0, 0⟩
        acceptingStateKeys :=
          buildAcceptingStates (buildStates cfg.targetString.length cfg.requiredCount)
            cfg.targetString.length cfg.requiredCount
        transitions :=
          buildTransitions (setOfList cfg.alphabet) cfg.targetString cfg.targetChar
            cfg.requiredCount (buildStates cfg.targetString.length cfg.requiredCount) } s =
      .ok ((buildAcceptingStates (buildStates cfg.targetString.length cfg.requiredCount)
          cfg.targetString.length cfg.requiredCount).contains
        (List.foldl (calculateNextState cfg.targetString cfg.targetChar cfg.requiredCount)
          ⟨0, 0⟩ s)) :=
    acceptsFrom_valid rfl rfl s ⟨0, 0⟩ hstart hs'
  rw [hacc, foldl_calculateNextState]
  have hprog : List.foldl (fun q c => nextProgress cfg.targetString q c)
      (DFAState.progress ⟨0, 0⟩) s = maxBorder cfg.targetString s :=
    foldl_nextProgress_eq_maxBorder cfg.targetString s
  have hcnt : List.foldl (fun k c => nextCount cfg.targetChar cfg.requiredCount k c)
      (DFAState.count ⟨0, 0⟩) s =
      min (s.count cfg.targetChar) (cfg.requiredCount + 1) := by
    have h := foldl_nextCount cfg.targetChar cfg.requiredCount s 0
    rw [Nat.min_eq_left (by omega), Nat.zero_add] at h
    exact h
  rw [hprog, hcnt]
  apply congrArg Except.ok
  have hmemfin : (⟨maxBorder cfg.targetString s,
      min (s.count cfg.targetChar) (cfg.requiredCount + 1)⟩ : DFAState) ∈
      buildStates cfg.targetString.length cfg.requiredCount :=
    mem_buildStates.mpr ⟨maxBorder_le _ _, Nat.min_le_right _ _⟩
  rw [contains_buildAcceptingStates hmemfin]
  show ((maxBorder cfg.targetString s == cfg.targetString.length) &&
      (min (s.count cfg.targetChar) (cfg.requiredCount + 1) == cfg.requiredCount)) =
    specAccepts cfg s
  apply bool_eq_of_iff
  simp only [Bool.and_eq_true, beq_iff_eq, specAccepts, Bool.or_eq_true, decide_eq_true_eq,
    List.isEmpty_iff]
  constructor
  · rintro ⟨hp, hcount⟩
    exact ⟨Or.inl (maxBorder_eq_length_iff.mp hp), by omega⟩
  · rintro ⟨hsfx, hcount⟩
    have hsfx' : cfg.targetString <:+ s := by
      rcases hsfx with h | h
      · exact h
      · rw [h]
        exact List.nil_suffix
    exact ⟨maxBorder_eq_length_iff.mpr hsfx', by omega⟩

theorem accepts_matches_naive_reference_witness :
    mkDFA ⟨['a', 'b'], ['a', 'b'], 'a', 2⟩ =
      .ok (okDFA (mkDFA ⟨['a', 'b'], ['a', 'b'], 'a', 2⟩)) ∧
    (okDFA (mkDFA ⟨['a', 'b'], ['a', 'b'], 'a', 2⟩)).accepts ['b', 'a', 'a', 'b'] =
      .ok (specAccepts ⟨['a', 'b'], ['a', 'b'], 'a', 2⟩ ['b', 'a', 'a', 'b']) ∧
    specAccepts ⟨['a', 'b'], ['a', 'b'], 'a', 2⟩ ['b', 'a', 'a', 'b'] = true :=
  ⟨rfl,
    accepts_matches_naive_reference ⟨['a', 'b'], ['a', 'b'], 'a', 2⟩ _
      (by decide) (by decide) (by decide) (by decide) rfl ['b', 'a', 'a', 'b'] (by decide),
    by decide⟩

/-- C4: on a constructed engine, an input whose first out-of-alphabet
symbol is `bad` makes `accepts` raise `InvalidSymbol bad` (never
swallowed: the walk returns that error), while `trace` on the same input
does not raise: it returns exactly the trace of the valid prefix — the
start entry plus the steps taken before the offending symbol. -/
theorem accepts_raises_trace_stops (cfg : DFAConfig) (d : DFA) (hmk : mkDFA cfg = .ok d)
    (pre rest : List Char) (bad : Char)
    (hpre : ∀ c ∈ pre, c ∈ d.alphabet) (hbad : bad ∉ d.alphabet) :
    d.accepts (pre ++ bad :: rest) = .error (.invalidSymbol bad) ∧
    d.trace (pre ++ bad :: rest) = d.trace pre ∧
    d.trace pre =
      .ok ((none, d.startState) ::
        walkSteps d.targetString d.targetChar d.requiredCount d.startState pre) := by
  have hd := mkDFA_ok_elim hmk
  have hTrans : d.transitions =
      buildTransitions d.alphabet d.targetString d.targetChar d.requiredCount d.states := by
    rw [hd]
  have hStates : d.states = buildStates d.targetString.length d.requiredCount := by
    rw [hd]
  have hstart : d.startState ∈ d.states := by
    rw [hd]
    exact mem_buildStates.mpr ⟨Nat.zero_le _, Nat.zero_le _⟩
  have hpreB : ∀ c ∈ pre, d.alphabet.contains c = true :=
    fun c hc => by simpa using hpre c hc
  have hbadB : d.alphabet.contains bad = false := by
    rw [← Bool.not_eq_true]
    simpa using hbad
  have h1 := traceFrom_takeWhile hTrans hStates (pre ++ bad :: rest) d.startState hstart
  have h2 := traceFrom_takeWhile hTrans hStates pre d.startState hstart
  rw [takeWhile_append_stop rest hbadB pre hpreB] at h1
  rw [takeWhile_all hpreB] at h2
  refine ⟨?_, ?_, ?_⟩
  · exact acceptsFrom_invalid hTrans hStates rest hbad pre d.startState hstart hpre
  · simp only [DFA.trace]
    rw [h1, h2]
  · simp only [DFA.trace]
    rw [h2]

theorem accepts_raises_trace_stops_witness :
    mkDFA ⟨['a', 'b'], ['a', 'b'], 'a', 2⟩ =
      .ok (okDFA (mkDFA ⟨['a', 'b'], ['a', 'b'], 'a', 2⟩)) ∧
    (okDFA (mkDFA ⟨['a', 'b'], ['a', 'b'], 'a', 2⟩)).accepts ['a', 'c', 'b'] =
      .error (.invalidSymbol 'c') ∧
    (okDFA (mkDFA ⟨['a', 'b'], ['a', 'b'], 'a', 2⟩)).trace ['a', 'c', 'b'] =
      (okDFA (mkDFA ⟨['a', 'b'], ['a', 'b'], 'a', 2⟩)).trace ['a'] := by
  have h := accepts_raises_trace_stops ⟨['a', 'b'], ['a', 'b'], 'a', 2⟩ _ rfl
    ['a'] ['b'] 'c' (by decide) (by decide)
  exact ⟨rfl, h.1, h.2.1⟩

/-- C6: on a constructed engine `trace` never raises: it returns the
start entry followed by exactly the edges actually taken — the
transition-function walk over the longest in-alphabet prefix of the
input — and the number of edges is at most `len(input)`.  The
"recomputed fresh per call" clause is definitional here: `trace` is a
pure function of the engine and the input, so two calls with the same
input are the same term. -/
theorem trace_is_bounded_edge_list (cfg : DFAConfig) (d : DFA) (hmk : mkDFA cfg = .ok d)
    (input : List Char) :
    d.trace input =
      .ok ((none, d.startState) ::
        walkSteps d.targetString d.targetChar d.requiredCount d.startState
          (input.takeWhile (fun c => d.alphabet.contains c))) ∧
    (walkSteps d.targetString d.targetChar d.requiredCount d.startState
      (input.takeWhile (fun c => d.alphabet.contains c))).length ≤ input.length := by
  have hd := mkDFA_ok_elim hmk
  have hTrans : d.transitions =
      buildTransitions d.alphabet d.targetString d.targetChar d.requiredCount d.states := by
    rw [hd]
  have hStates : d.states = buildStates d.targetString.length d.requiredCount := by
    rw [hd]
  have hstart : d.startState ∈ d.states := by
    rw [hd]
    exact mem_buildStates.mpr ⟨Nat.zero_le _, Nat.zero_le _⟩
  have h1 := traceFrom_takeWhile hTrans hStates input d.startState hstart
  constructor
  · simp only [DFA.trace]
    rw [h1]
  · rw [walkSteps_length]
    exact (List.takeWhile_prefix _).length_le

theorem trace_is_bounded_edge_list_witness :
    mkDFA ⟨['a', 'b'], ['a', 'b'], 'a', 2⟩ =
      .ok (okDFA (mkDFA ⟨['a', 'b'], ['a', 'b'], 'a', 2⟩)) ∧
    (okDFA (mkDFA ⟨['a', 'b'], ['a', 'b'], 'a', 2⟩)).trace ['a', 'b'] =
      .ok ((none, (okDFA (mkDFA ⟨['a', 'b'], ['a', 'b'], 'a', 2⟩)).startState) ::
        walkSteps (okDFA (mkDFA ⟨['a', 'b'], ['a', 'b'], 'a', 2⟩)).targetString
          (okDFA (mkDFA ⟨['a', 'b'], ['a', 'b'], 'a', 2⟩)).targetChar
          (okDFA (mkDFA ⟨['a', 'b'], ['a', 'b'], 'a', 2⟩)).requiredCount
          (okDFA (mkDFA ⟨['a', 'b'], ['a', 'b'], 'a', 2⟩)).startState
          (['a', 'b'].takeWhile
            (fun c => (okDFA (mkDFA ⟨['a', 'b'], ['a', 'b'], 'a', 2⟩)).alphabet.contains c))) ∧
    (walkSteps (okDFA (mkDFA ⟨['a', 'b'], ['a', 'b'], 'a', 2⟩)).targetString
      (okDFA (mkDFA ⟨['a', 'b'], ['a', 'b'], 'a', 2⟩)).targetChar
      (okDFA (mkDFA ⟨['a', 'b'], ['a', 'b'], 'a', 2⟩)).requiredCount
      (okDFA (mkDFA ⟨['a', 'b'], ['a', 'b'], 'a', 2⟩)).startState
      (['a', 'b'].takeWhile
        (fun c => (okDFA (mkDFA ⟨['a', 'b'], ['a', 'b'], 'a', 2⟩)).alphabet.contains c))).length ≤
      (['a', 'b'] : List Char).length := by
  have h := trace_is_bounded_edge_list ⟨['a', 'b'], ['a', 'b'], 'a', 2⟩ _ rfl ['a', 'b']
  exact ⟨rfl, h.1, h.2⟩

/-! ### Totality of the transition table (C8) -/

theorem length_buildStates : ∀ (m rc : Nat), (buildStates m rc).length = (m + 1) * (rc + 2)
  | 0, rc => by
    rw [buildStates, show List.range 1 = [0] from rfl]
    simp only [List.flatMap_cons, List.flatMap_nil, List.append_nil,
      List.length_map, List.length_range]
    ring
  | m + 1, rc => by
    rw [buildStates, List.range_succ, List.flatMap_append, List.length_append]
    have h := length_buildStates m rc
    rw [buildStates] at h
    rw [h]
    simp only [List.flatMap_cons, List.flatMap_nil, List.append_nil, List.length_map,
      List.length_range]
    ring

theorem nodup_buildStates : ∀ (m rc : Nat), (buildStates m rc).Nodup
  | 0, rc => by
    rw [buildStates, show List.range 1 = [0] from rfl]
    simp only [List.flatMap_cons, List.flatMap_nil, List.append_nil]
    exact (List.nodup_range _).map (fun a b h => congrArg DFAState.count h)
  | m + 1, rc => by
    rw [buildStates, List.range_succ, List.flatMap_append, List.nodup_append]
    refine ⟨?_, ?_, ?_⟩
    · have h := nodup_buildStates m rc
      rw [buildStates] at h
      exact h
    · simp only [List.flatMap_cons, List.flatMap_nil, List.append_nil]
      exact (List.nodup_range _).map (fun a b h => congrArg DFAState.count h)
    · intro st h1 h2
      have hm1 : st ∈ buildStates m rc := by rw [buildStates]; exact h1
      have hle := (mem_buildStates.mp hm1).1
      simp only [List.flatMap_cons, List.flatMap_nil, List.append_nil, List.mem_map] at h2
      obtain ⟨c, _, rfl⟩ := h2
      have : m + 1 ≤ m := hle
      omega

theorem find?_buildTransitions {alphabet target : List Char} {tc : Char} {rc : Nat}
    {st : DFAState} :
    ∀ {states : List DFAState}, st ∈ states →
      (buildTransitions alphabet target tc rc states).find? (fun p => p.1 == st) =
        some (st, buildTransitionRow alphabet target tc rc st)
  | [], h => absurd h (List.not_mem_nil st)
  | st₀ :: rest, h => by
    simp only [buildTransitions, List.map_cons]
    by_cases h0 : st₀ = st
    · subst h0
      rw [List.find?_cons_of_pos _ (by simp)]
    · rw [List.find?_cons_of_neg _ (by simpa using h0)]
      have h' : st ∈ rest := by
        rcases List.mem_cons.mp h with rfl | hh
        · exact absurd rfl h0
        · exact hh
      exact find?_buildTransitions h'

theorem filter_row_not_mem {target : List Char} {tc : Char} {rc : Nat} {st : DFAState}
    {a : Char} :
    ∀ {alphabet : List Char}, a ∉ alphabet →
      (buildTransitionRow alphabet target tc rc st).filter (fun p => p.1 == a) = []
  | [], _ => rfl
  | b :: rest, h => by
    have hrow : buildTransitionRow (b :: rest) target tc rc st =
        (b, calculateNextState target tc rc st b) :: buildTransitionRow rest target tc rc st :=
      rfl
    rw [hrow, List.filter_cons]
    have hb : b ≠ a := fun e => h (e ▸ List.mem_cons_self b rest)
    rw [if_neg (by simpa using hb)]
    exact filter_row_not_mem (fun hh => h (List.mem_cons_of_mem _ hh))

theorem filter_row_length_one {target : List Char} {tc : Char} {rc : Nat} {st : DFAState}
    {a : Char} :
    ∀ {alphabet : List Char}, alphabet.Nodup → a ∈ alphabet →
      ((buildTransitionRow alphabet target tc rc st).filter (fun p => p.1 == a)).length = 1
  | [], _, ha => absurd ha (List.not_mem_nil a)
  | b :: rest, hnd, ha => by
    obtain ⟨hbnotin, hrest⟩ := List.nodup_cons.mp hnd
    have hrow : buildTransitionRow (b :: rest) target tc rc st =
        (b, calculateNextState target tc rc st b) :: buildTransitionRow rest target tc rc st :=
      rfl
    rw [hrow, List.filter_cons]
    by_cases hb : b = a
    · subst hb
      rw [if_pos (by simp), List.length_cons, filter_row_not_mem hbnotin]
      rfl
    · rw [if_neg (by simpa using hb)]
      have ha' : a ∈ rest := by
        rcases List.mem_cons.mp ha with rfl | hh
        · exact absurd rfl hb
        · exact hh
      exact filter_row_length_one hrest ha'

/-- C8: for a constructed engine the transition table is total and
exact: there are `(len(targetString)+1) * (requiredCount+2)` declared
states, all distinct; the table's keys are exactly the declared states
in order; and for every declared state and alphabet symbol the state's
row holds exactly one entry for that symbol, whose value is the
precomputed successor. -/
theorem transition_table_total (cfg : DFAConfig) (d : DFA) (hmk : mkDFA cfg = .ok d) :
    d.states.length = (cfg.targetString.length + 1) * (cfg.requiredCount + 2) ∧
    d.states.Nodup ∧
    d.transitions.map (fun p => p.1) = d.states ∧
    ∀ st ∈ d.states, ∀ a ∈ d.alphabet,
      d.transitions.find? (fun p => p.1 == st) =
        some (st, buildTransitionRow d.alphabet d.targetString d.targetChar d.requiredCount st) ∧
      ((buildTransitionRow d.alphabet d.targetString d.targetChar d.requiredCount st).filter
        (fun p => p.1 == a)).length = 1 ∧
      lookupTransitions d.transitions st a =
        some (calculateNextState d.targetString d.targetChar d.requiredCount st a) := by
  have hd := mkDFA_ok_elim hmk
  subst hd
  refine ⟨length_buildStates _ _, nodup_buildStates _ _, ?_, ?_⟩
  · show (buildTransitions (setOfList cfg.alphabet) cfg.targetString cfg.targetChar
        cfg.requiredCount (buildStates cfg.targetString.length cfg.requiredCount)).map
      (fun p => p.1) = buildStates cfg.targetString.length cfg.requiredCount
    rw [buildTransitions, List.map_map]
    show (buildStates cfg.targetString.length cfg.requiredCount).map (fun st => st) =
      buildStates cfg.targetString.length cfg.requiredCount
    exact List.map_id' _
  · intro st hst a ha
    exact ⟨find?_buildTransitions hst,
      filter_row_length_one (nodup_setOfList _) ha,
      by rw [lookupTransitions_mem hst, lookupRow_mem ha]⟩

theorem transition_table_total_witness :
    mkDFA ⟨['a', 'b'], ['a'], 'a', 1⟩ = .ok (okDFA (mkDFA ⟨['a', 'b'], ['a'], 'a', 1⟩)) ∧
    (okDFA (mkDFA ⟨['a', 'b'], ['a'], 'a', 1⟩)).states.length =
      ((⟨['a', 'b'], ['a'], 'a', 1⟩ : DFAConfig).targetString.length + 1) *
        ((⟨['a', 'b'], ['a'], 'a', 1⟩ : DFAConfig).requiredCount + 2) ∧
    (okDFA (mkDFA ⟨['a', 'b'], ['a'], 'a', 1⟩)).states.Nodup :=
  ⟨rfl, (transition_table_total ⟨['a', 'b'], ['a'], 'a', 1⟩ _ rfl).1,
    (transition_table_total ⟨['a', 'b'], ['a'], 'a', 1⟩ _ rfl).2.1⟩

/-! ### No mutation during evaluation in the suffix-buffer revision (C5) -/

theorem bufHas_bufSet_mono {k : DFAState} {v : List Char} {x : DFAState} :
    ∀ (buf : List (DFAState × List Char)), bufHas buf x = true →
      bufHas (bufSet buf k v) x = true
  | [], h => by simp [bufHas] at h
  | q :: rest, h => by
    rw [bufHas, List.any_cons] at h
    rw [bufSet]
    by_cases hq : q.1 == k
    · rw [if_pos hq]
      rw [bufHas, List.any_cons]
      cases hq1 : (q.1 == x) with
      | true =>
        have e1 : q.1 = x := by simpa using hq1
        have e2 : q.1 = k := by simpa using hq
        have hkx : (k == x) = true := by
          rw [← e2, e1]
          simp
        rw [hkx, Bool.true_or]
      | false =>
        have h2 : rest.any (fun p => p.1 == x) = true := by
          rw [hq1] at h
          simpa using h
        rw [h2, Bool.or_true]
    · rw [if_neg hq]
      rw [bufHas, List.any_cons]
      cases hq1 : (q.1 == x) with
      | true => rw [Bool.true_or]
      | false =>
        have h2 : rest.any (fun p => p.1 == x) = true := by
          rw [hq1] at h
          simpa using h
        have h4 : (bufSet rest k v).any (fun p => p.1 == x) = true :=
          bufHas_bufSet_mono rest h2
        rw [h4, Bool.or_true]

theorem bufHas_bufSet_self {k : DFAState} {v : List Char} :
    ∀ (buf : List (DFAState × List Char)), bufHas (bufSet buf k v) k = true
  | [] => by simp [bufSet, bufHas]
  | q :: rest => by
    rw [bufSet]
    by_cases hq : q.1 == k
    · rw [if_pos hq]
      simp [bufHas]
    · rw [if_neg hq]
      rw [bufHas, List.any_cons]
      have h4 : (bufSet rest k v).any (fun p => p.1 == k) = true :=
        bufHas_bufSet_self rest
      rw [h4, Bool.or_true]

theorem bufHas_condSet_mono (buf : List (DFAState × List Char)) (k x : DFAState)
    (v : List Char) (h : bufHas buf x = true) :
    bufHas (if bufHas buf k then buf else bufSet buf k v) x = true := by
  split
  · exact h
  · exact bufHas_bufSet_mono buf h

theorem bufHas_condSet_self (buf : List (DFAState × List Char)) (k : DFAState)
    (v : List Char) :
    bufHas (if bufHas buf k then buf else bufSet buf k v) k = true := by
  by_cases hk : bufHas buf k = true
  · rw [if_pos hk]
    exact hk
  · rw [if_neg hk]
    exact bufHas_bufSet_self buf

theorem buildRow2_buf_mono (target : List Char) (tc : Char) (mc : Nat) (st : DFAState)
    (curBuf : List Char) (x : DFAState) :
    ∀ (alpha : List Char) (row : List (Char × DFAState)) (buf : List (DFAState × List Char)),
      bufHas buf x = true →
      bufHas (buildRow2 target tc mc st curBuf alpha row buf).2 x = true
  | [], _, _, h => h
  | a :: rest, row, buf, h => by
    rw [buildRow2]
    exact buildRow2_buf_mono target tc mc st curBuf x rest _ _
      (bufHas_condSet_mono _ _ _ _ h)

theorem buildRow2_invariant (target : List Char) (tc : Char) (mc : Nat) (st : DFAState)
    (curBuf : List Char) :
    ∀ (alpha : List Char) (row : List (Char × DFAState)) (buf : List (DFAState × List Char)),
      (∀ p ∈ row, bufHas buf p.2 = true) →
      ∀ p ∈ (buildRow2 target tc mc st curBuf alpha row buf).1,
        bufHas (buildRow2 target tc mc st curBuf alpha row buf).2 p.2 = true
  | [], _, _, hrow => hrow
  | a :: rest, row, buf, hrow => by
    rw [buildRow2]
    apply buildRow2_invariant target tc mc st curBuf rest _ _
    intro p hp
    rcases List.mem_append.mp hp with hold | hnew
    · exact bufHas_condSet_mono _ _ _ _ (hrow p hold)
    · have hpv : p = (a, calculateNextState2 target tc mc st curBuf a) := by
        simpa using hnew
      rw [hpv]
      exact bufHas_condSet_self _ _ _

theorem buildTransitions2_invariant (target : List Char) (tc : Char) (mc : Nat)
    (alphabet : List Char) :
    ∀ (states : List DFAState) (table : List (DFAState × List (Char × DFAState)))
      (buf : List (DFAState × List Char)),
      (∀ q ∈ table, ∀ p ∈ q.2, bufHas buf p.2 = true) →
      ∀ q ∈ (buildTransitions2 target tc mc states table buf alphabet).1,
        ∀ p ∈ q.2,
          bufHas (buildTransitions2 target tc mc states table buf alphabet).2 p.2 = true
  | [], _, _, h => h
  | st :: rest, table, buf, h => by
    rw [buildTransitions2]
    apply buildTransitions2_invariant target tc mc alphabet rest _ _
    intro q hq p hp
    rcases List.mem_append.mp hq with hold | hnew
    · exact buildRow2_buf_mono target tc mc st (bufGet buf st) p.2 alphabet [] buf
        (h q hold p hp)
    · have hqv : q = (st, (buildRow2 target tc mc st (bufGet buf st) alphabet [] buf).1) := by
        simpa using hnew
      rw [hqv] at hp
      exact buildRow2_invariant target tc mc st (bufGet buf st) alphabet [] buf
        (fun p' hp' => absurd hp' (List.not_mem_nil p')) p hp

theorem lookupTransitions_entry {t : List (DFAState × List (Char × DFAState))}
    {st : DFAState} {a : Char} {st' : DFAState}
    (h : lookupTransitions t st a = some st') :
    ∃ q ∈ t, ∃ p ∈ q.2, p.2 = st' := by
  unfold lookupTransitions at h
  revert h
  cases hf : t.find? (fun p => p.1 == st) with
  | none => exact fun h => Option.noConfusion h
  | some q =>
    intro h
    have h1 : lookupRow q.2 a = some st' := h
    have hqmem : q ∈ t := List.mem_of_find?_eq_some hf
    unfold lookupRow at h1
    revert h1
    cases hf2 : q.2.find? (fun p => p.1 == a) with
    | none => exact fun h1 => Option.noConfusion h1
    | some p =>
      intro h1
      have h2 : some p.2 = some st' := h1
      exact ⟨q, hqmem, p, List.mem_of_find?_eq_some hf2, Option.some_inj.mp h2⟩

theorem mkDFA2_ok_elim {cfg : DFAConfig2} {d : DFA2} (h : mkDFA2 cfg = .ok d) :
    d = { alphabet := setOfList cfg.alphabet
          targetString := cfg.targetString
          targetChar := cfg.targetChar
          minCount := cfg.minCount
          states := buildStates cfg.targetString.length cfg.minCount
          startState := ⟨0, 0⟩
          acceptingStateKeys :=
            buildAcceptingStates (buildStates cfg.targetString.length cfg.minCount)
              cfg.targetString.length cfg.minCount
          transitions :=
            (buildTransitions2 cfg.targetString cfg.targetChar cfg.minCount
              (buildStates cfg.targetString.length cfg.minCount) [] []
              (setOfList cfg.alphabet)).1
          suffixBuffer :=
            bufSet
              (buildTransitions2 cfg.targetString cfg.targetChar cfg.minCount
                (buildStates cfg.targetString.length cfg.minCount) [] []
                (setOfList cfg.alphabet)).2
              ⟨0, 0⟩ [] } := by
  unfold mkDFA2 at h
  split at h
  · exact Except.noConfusion h
  · split at h
    · exact Except.noConfusion h
    · injection h with h'
      exact h'.symm

theorem accepts2From_nomut (d : DFA2)
    (hinv : ∀ q ∈ d.transitions, ∀ p ∈ q.2, bufHas d.suffixBuffer p.2 = true) :
    ∀ (s curBuf : List Char) (st : DFAState),
      (accepts2From d st curBuf s d.suffixBuffer).2 = d.suffixBuffer
  | [], _, _ => rfl
  | a :: rest, curBuf, st => by
    rw [accepts2From]
    by_cases ha : d.alphabet.contains a = true
    · have hna : (!d.alphabet.contains a) = false := by rw [ha]; rfl
      rw [hna, if_neg Bool.false_ne_true]
      cases hlk : lookupTransitions d.transitions st a with
      | none => rfl
      | some st' =>
        have hhas : bufHas d.suffixBuffer st' = true := by
          obtain ⟨q, hq, p, hp, hpv⟩ := lookupTransitions_entry hlk
          rw [← hpv]
          exact hinv q hq p hp
        show (accepts2From d st' (sliceNeg (curBuf ++ [a]) d.targetString.length) rest
          (if bufHas d.suffixBuffer st' = true then d.suffixBuffer
           else bufSet d.suffixBuffer st'
             (sliceNeg (curBuf ++ [a]) d.targetString.length))).2 = d.suffixBuffer
        rw [if_pos hhas]
        exact accepts2From_nomut d hinv rest _ st'
    · have ha2 : d.alphabet.contains a = false := by
        rw [← Bool.not_eq_true]
        exact ha
      have hna : (!d.alphabet.contains a) = true := by rw [ha2]; rfl
      rw [hna, if_pos rfl]

/-- C5: on a constructed engine of the suffix-buffer revision, `accepts`
never mutates engine-held state: the `suffixBuffer` map — the only field
either revision's evaluation code can write (`trace` contains no write,
and every other field is only read) — is identical before and after the
call, for every input.  The conditional `suffixBuffer.set` inside the
walk never fires because construction already stored a buffer for every
successor state appearing in the transition table. -/
theorem accepts_does_not_mutate (cfg : DFAConfig2) (d : DFA2) (hmk : mkDFA2 cfg = .ok d)
    (input : List Char) : (d.accepts input).2 = d.suffixBuffer := by
  apply accepts2From_nomut
  have hd := mkDFA2_ok_elim hmk
  intro q hq p hp
  rw [hd] at hq ⊢
  have hbase := buildTransitions2_invariant cfg.targetString cfg.targetChar cfg.minCount
    (setOfList cfg.alphabet) (buildStates cfg.targetString.length cfg.minCount) [] []
    (fun q' hq' => absurd hq' (List.not_mem_nil q')) q hq p hp
  exact bufHas_bufSet_mono _ hbase

theorem accepts_does_not_mutate_witness :
    mkDFA2 ⟨['a', 'b'], ['a', 'b'], 'a', 1⟩ =
      .ok (okDFA2 (mkDFA2 ⟨['a', 'b'], ['a', 'b'], 'a', 1⟩)) ∧
    ((okDFA2 (mkDFA2 ⟨['a', 'b'], ['a', 'b'], 'a', 1⟩)).accepts ['a', 'b', 'b']).2 =
      (okDFA2 (mkDFA2 ⟨['a', 'b'], ['a', 'b'], 'a', 1⟩)).suffixBuffer :=
  ⟨rfl, accepts_does_not_mutate ⟨['a', 'b'], ['a', 'b'], 'a', 1⟩ _ rfl ['a', 'b', 'b']⟩

end Tyap
